import Mathlib

/-!
Verification of the shortest-path core of the Fundamentals repository:
`Source/Algorithms/Graph/bellman-ford.py` (function `bellman_ford`) and
`Source/Algorithms/Graph/dijkstra.py` (function `dijkstra`).

The embedding is a direct translation of the Python code:
  * Python `dict`s become functions `Int → Option α` (`none` = key absent);
    subscript reads go through `dget`, which raises `KeyError` exactly when
    Python would, and subscript writes go through `dset`, which adds the key
    when it is absent, exactly like a Python dict assignment.
  * `float('Infinity')` and numbers become the two-constructor type `Val`,
    with `vAdd`/`vLt` mirroring IEEE behaviour on the values the program
    produces (`inf + w = inf`, `inf < x` false, `x < inf` true for finite x).
  * Exceptions (`KeyError`, `TypeError`, `AttributeError`,
    `NegativeEdgeCycleError`) are the error side of `Except Err`.
  * `queue.PriorityQueue` is modelled as a list kept sorted by the
    lexicographic order on the `(priority, id)` tuples that the program
    inserts; `get` removes the head, which is always a minimal tuple, exactly
    the observable behaviour of the Python heap.
  * The `while` loops are fueled; fuel exhaustion is the distinguished error
    `Err.outOfFuel`, and the fuel given by `dijkstraFuel` is proved/checked
    sufficient where a claim depends on it.
Weights and vertex ids are integers (`Int`), as in every use in the
repository.
-/

/-- Errors a run can surface: the Python exceptions raised by the two
algorithm files, plus the fuel sentinel of the embedded loops. -/
inductive Err where
  | keyError (k : ℤ)
  | typeError
  | attrError
  | negativeEdgeCycleError (a b : ℤ)
  | outOfFuel
deriving DecidableEq

deriving instance DecidableEq for Except

/-- A Python dict keyed by vertex ids: `none` means the key is absent. -/
def Dict (α : Type) : Type := ℤ → Option α

/-- Python `d[k]` (read): `KeyError` when the key is absent. -/
def dget {α : Type} (d : Dict α) (k : ℤ) : Except Err α :=
  match d k with
  | some v => .ok v
  | none => .error (.keyError k)

/-- Python `d[k] = v` (write): replaces the value or adds the key. -/
def dset {α : Type} (d : Dict α) (k : ℤ) (v : α) : Dict α :=
  fun x => if x = k then some v else d x

/-- A distance value in `bellman_ford`: `float('Infinity')` or a number. -/
inductive Val where
  | inf
  | fin (z : ℤ)
deriving DecidableEq

/-- Python `x + w` for `x` a distance value and `w` a finite weight. -/
def vAdd : Val → ℤ → Val
  | .inf, _ => .inf
  | .fin a, w => .fin (a + w)

/-- Python `a < b` on distance values (`inf < inf` is `False`,
`finite < inf` is `True`). -/
def vLt : Val → Val → Bool
  | .inf, _ => false
  | .fin _, .inf => true
  | .fin a, .fin b => decide (a < b)

namespace BF

/-- An edge of `bellman-ford.py`; the `Vertex` objects stored in the Python
`Edge` have no state besides `id`, so the endpoint ids are stored directly. -/
structure Edge where
  source : ℤ
  dest : ℤ
  weight : ℤ
deriving DecidableEq

/-- The graph of `bellman-ford.py`: the keys of the `vertices` dict and the
`edges` list, in order. -/
structure Graph where
  vertices : List ℤ
  edges : List Edge
deriving DecidableEq

/-- The mutable state of a `bellman_ford` call: the graph it reads and the
`dists` and `prevs` dicts it updates. -/
structure S where
  g : Graph
  dists : Dict Val
  prevs : Dict (Option ℤ)

/-- The state right after the initialisation statements of `bellman_ford`:
`dists = {key: inf for key in g.vertices}`, `prevs = {key: None ...}`,
then `dists[start_id] = 0`. -/
def initState (g : Graph) (start_id : ℤ) : S :=
  { g := g
    dists := dset (fun v => if v ∈ g.vertices then some Val.inf else none) start_id (Val.fin 0)
    prevs := fun v => if v ∈ g.vertices then some none else none }

/-- The body of the inner relaxation loop of `bellman_ford` for one edge:
`dist_start_dest = dists[e.source.id] + e.weight`; if
`dists[e.dest.id] > dist_start_dest` then update `dists` and `prevs`. -/
def relaxEdge (s : S) (e : Edge) : Except Err S :=
  match dget s.dists e.source with
  | .error er => .error er
  | .ok ds =>
    match dget s.dists e.dest with
    | .error er => .error er
    | .ok dd =>
      if vLt (vAdd ds e.weight) dd then
        .ok { g := s.g
              dists := dset s.dists e.dest (vAdd ds e.weight)
              prevs := dset s.prevs e.dest (some e.source) }
      else .ok s

/-- One pass of `for e in g.edges` applying `relaxEdge` in list order. -/
def relaxEdges : List Edge → S → Except Err S
  | [], s => .ok s
  | e :: es, s =>
    match relaxEdge s e with
    | .error er => .error er
    | .ok s' => relaxEdges es s'

/-- The outer loop `for i in range(1, len(g.vertices))`: `n` full passes
over the edge list read from the state's graph. -/
def relaxPasses : Nat → S → Except Err S
  | 0, s => .ok s
  | n + 1, s =>
    match relaxEdges s.g.edges s with
    | .error er => .error er
    | .ok s' => relaxPasses n s'

/-- The final verification scan of `bellman_ford`: raise
`NegativeEdgeCycleError(e.source.id, e.dest.id)` at the first edge with
`dists[e.source.id] + e.weight < dists[e.dest.id]`. -/
def checkEdges : List Edge → Dict Val → Except Err Unit
  | [], _ => .ok ()
  | e :: es, dists =>
    match dget dists e.source with
    | .error er => .error er
    | .ok ds =>
      match dget dists e.dest with
      | .error er => .error er
      | .ok dd =>
        if vLt (vAdd ds e.weight) dd then
          .error (.negativeEdgeCycleError e.source e.dest)
        else checkEdges es dists

/-- The function `bellman_ford(g, start_id)` of `bellman-ford.py`. -/
def bellman_ford (g : Graph) (start_id : ℤ) :
    Except Err (Dict Val × Dict (Option ℤ)) :=
  match relaxPasses (g.vertices.length - 1) (initState g start_id) with
  | .error er => .error er
  | .ok s =>
    match checkEdges s.g.edges s.dists with
    | .error er => .error er
    | .ok _ => .ok (s.dists, s.prevs)

/-- A walk in a `BF.Graph`: `isWalk g u es v` holds when `es` is a chain of
edges of `g` leading from `u` to `v`. -/
def isWalk (g : Graph) : ℤ → List Edge → ℤ → Bool
  | u, [], v => decide (u = v)
  | u, e :: es, v =>
    decide (e ∈ g.edges) && decide (e.source = u) && isWalk g e.dest es v

/-- The total weight of a list of edges. -/
def walkWeight (es : List Edge) : ℤ :=
  (es.map Edge.weight).sum

/-- Holds when a run's outcome is a raised `NegativeEdgeCycleError` whose
two payload ids are the endpoints of some edge of `g`. -/
def isNegCycleFrom (g : Graph) :
    Except Err (Dict Val × Dict (Option ℤ)) → Bool
  | .error (.negativeEdgeCycleError a b) =>
    g.edges.any fun e => decide (e.source = a) && decide (e.dest = b)
  | _ => false

end BF

namespace DJ

/-- An edge of `dijkstra.py`; the algorithm reads only `edge.dest.id` and
`edge.weight`, and the `Node` objects stored as endpoints carry no state
beyond their id and edge list, so endpoint ids are stored directly. -/
structure Edge where
  source : ℤ
  dest : ℤ
  weight : ℤ
deriving DecidableEq

/-- A node of `dijkstra.py`: an id and its outgoing edge list. -/
structure Node where
  id : ℤ
  edges : List Edge
deriving DecidableEq

/-- The graph of `dijkstra.py`: the `nodes` dict, as its list of values;
each key of the Python dict is the stored node's `id`. -/
structure Graph where
  nodes : List Node
deriving DecidableEq

/-- The key list of the `g.nodes` dict. -/
def ids (g : Graph) : List ℤ :=
  g.nodes.map Node.id

/-- Python `g.nodes[k]`: `KeyError` when no node has that id. -/
def lookNode (g : Graph) (k : ℤ) : Except Err Node :=
  match g.nodes.find? (fun n => decide (n.id = k)) with
  | some n => .ok n
  | none => .error (.keyError k)

/-- Strict lexicographic order on the `(priority, id)` tuples the program
puts on the priority queue (Python tuple comparison). -/
def pqLt (a b : ℤ × ℤ) : Bool :=
  decide (a.1 < b.1) || (decide (a.1 = b.1) && decide (a.2 < b.2))

/-- `PriorityQueue.put`: the queue is kept sorted by `pqLt`, so that `get`
(taking the head) always removes a minimal tuple, as the Python heap does. -/
def pqPush : List (ℤ × ℤ) → (ℤ × ℤ) → List (ℤ × ℤ)
  | [], x => [x]
  | y :: ys, x => if pqLt x y then x :: y :: ys else y :: pqPush ys x

/-- The mutable state of the main `while` loop of `dijkstra`: the graph and
end id it reads, the `dists` and `prevs` dicts (whose stored values are
Python `None` or a number / `None` or a node id), and the priority queue. -/
structure S where
  g : Graph
  endID : ℤ
  dists : Dict (Option ℤ)
  prevs : Dict (Option ℤ)
  pq : List (ℤ × ℤ)

/-- The `dists` dict right after initialisation:
`dists = {key: None for key in g.nodes}` then `dists[startID] = 0`. -/
def initDists (g : Graph) (startID : ℤ) : Dict (Option ℤ) :=
  dset (fun v => if v ∈ ids g then some none else none) startID (some 0)

/-- The `prevs` dict right after initialisation:
`prevs = {key: None for key in g.nodes}`. -/
def initPrevs (g : Graph) : Dict (Option ℤ) :=
  fun v => if v ∈ ids g then some none else none

/-- The loop state of `dijkstra` on entry to the `while` loop, after
`nodePQ.put((0, start.id))`; when `startID` names a node, `start.id` is
`startID` and `dijkstra` reaches exactly this state. -/
def loopStart (g : Graph) (startID endID : ℤ) : S :=
  { g := g
    endID := endID
    dists := initDists g startID
    prevs := initPrevs g
    pq := pqPush [] (0, startID) }

/-- The body of `for edge in currentNode.edges` for one edge:
if `prevs[edge.dest.id] is None`, set `dists[edge.dest.id]`,
`prevs[edge.dest.id] = currentNode` (stored as its id) and put
`(dist, edge.dest.id)` on the queue.  Reading `dists[currentNode.id]` when
its stored value is `None` would be a Python `TypeError` on `None + w`. -/
def relaxOne (s : S) (cid : ℤ) (e : Edge) : Except Err S :=
  match dget s.prevs e.dest with
  | .error er => .error er
  | .ok (some _) => .ok s
  | .ok none =>
    match dget s.dists cid with
    | .error er => .error er
    | .ok none => .error .typeError
    | .ok (some dc) =>
      .ok { g := s.g
            endID := s.endID
            dists := dset s.dists e.dest (some (dc + e.weight))
            prevs := dset s.prevs e.dest (some cid)
            pq := pqPush s.pq (dc + e.weight, e.dest) }

/-- The whole `for edge in currentNode.edges` loop, in list order. -/
def relaxAll : S → ℤ → List Edge → Except Err S
  | s, _, [] => .ok s
  | s, cid, e :: es =>
    match relaxOne s cid e with
    | .error er => .error er
    | .ok s' => relaxAll s' cid es

/-- Outcome of one iteration of the `while` loop: continue with a new
state, or leave the loop (queue empty, or `break` at the end node). -/
inductive StepRes where
  | next (s : S)
  | exit (s : S)

/-- One iteration of `while not nodePQ.empty()`: pop the head tuple, look
its node up (`g.nodes[currentNodeID]`, before the `break` test, as in the
source), `break` if it is the end node, otherwise relax its edges. -/
def dstep (s : S) : Except Err StepRes :=
  match s.pq with
  | [] => .ok (.exit s)
  | qe :: rest =>
    match lookNode s.g qe.2 with
    | .error er => .error er
    | .ok currentNode =>
      if qe.2 = s.endID then
        .ok (.exit { s with pq := rest })
      else
        match relaxAll { s with pq := rest } currentNode.id currentNode.edges with
        | .error er => .error er
        | .ok s' => .ok (.next s')

/-- The fueled `while` loop: iterate `dstep` until it exits. -/
def dloop : Nat → S → Except Err S
  | 0, _ => .error .outOfFuel
  | f + 1, s =>
    match dstep s with
    | .error er => .error er
    | .ok (.exit s') => .ok s'
    | .ok (.next s') => dloop f s'

/-- The loop trajectory: the state after `n` iterations of `dstep` (stopping
early if the loop exits), used to inspect intermediate states of a run. -/
def dsteps : Nat → S → Except Err S
  | 0, s => .ok s
  | n + 1, s =>
    match dstep s with
    | .error er => .error er
    | .ok (.exit s') => .ok s'
    | .ok (.next s') => dsteps n s'

/-- Fuel for the main loop.  Every `put` after the first accompanies a
`prevs` entry flipping from stored `None` to a node, which happens at most
once per declared vertex, so the loop runs at most `1 + |g.nodes|`
iterations; this fuel is strictly larger. -/
def dijkstraFuel (g : Graph) : Nat :=
  g.nodes.length + 2

/-- The walk back from the end node along `prevs`
(`while currentNode.id != startID`), fueled; a stored `None` would be a
Python `AttributeError` on `None.id`. -/
def walkBack : Nat → Dict (Option ℤ) → ℤ → ℤ → List ℤ → Except Err (List ℤ)
  | 0, _, _, _, _ => .error .outOfFuel
  | f + 1, prevs, startID, cur, acc =>
    if cur = startID then .ok acc
    else
      match dget prevs cur with
      | .error er => .error er
      | .ok none => .error .attrError
      | .ok (some u) => walkBack f prevs startID u (acc ++ [u])

/-- The function `dijkstra(g, startID, endID)` of `dijkstra.py`.  Returns
the pair Python returns: the path (or `None`) and the distance (or `None`,
which is also the stored value of an untouched `dists` entry). -/
def dijkstra (g : Graph) (startID endID : ℤ) :
    Except Err (Option (List ℤ) × Option ℤ) :=
  match lookNode g startID with
  | .error er => .error er
  | .ok start =>
    match dloop (dijkstraFuel g)
        { g := g
          endID := endID
          dists := initDists g startID
          prevs := initPrevs g
          pq := pqPush [] (0, start.id) } with
    | .error er => .error er
    | .ok s =>
      match dget s.prevs endID with
      | .error er => .error er
      | .ok none => .ok (none, none)
      | .ok (some _) =>
        match lookNode s.g endID with
        | .error er => .error er
        | .ok endNode =>
          match walkBack (s.g.nodes.length + 2) s.prevs startID endNode.id [endID] with
          | .error er => .error er
          | .ok path_back =>
            match dget s.dists endID with
            | .error er => .error er
            | .ok dv => .ok (some path_back.reverse, dv)

/-- The sum of the weights of the edges traversed along a reported path:
for each consecutive pair the weight of the first matching edge in the
source node's edge list (the edge the relaxation used). -/
def pathWeight (g : Graph) : List ℤ → Option ℤ
  | [] => some 0
  | [_] => some 0
  | u :: v :: rest =>
    match lookNode g u with
    | .error _ => none
    | .ok n =>
      match n.edges.find? (fun e => decide (e.dest = v)) with
      | none => none
      | some e =>
        match pathWeight g (v :: rest) with
        | none => none
        | some w => some (e.weight + w)

/-- Holds when a run's outcome is a raised `KeyError` (for any key). -/
def isKeyErr {α : Type} : Except Err α → Bool
  | .error (.keyError _) => true
  | _ => false

end DJ

/-- Non-strict order on distance values (`inf` is the top element). -/
def vle : Val → Val → Prop
  | _, .inf => True
  | .inf, .fin _ => False
  | .fin a, .fin b => a ≤ b

/-- Holds when a stored `bellman_ford` distance is present, finite and at
most `0`. -/
def distLeZero : Option Val → Bool
  | some (.fin a) => decide (a ≤ 0)
  | _ => false

/-- The distance dict has an entry for every id in `V`. -/
def hasKeysBF (d : Dict Val) (V : List ℤ) : Prop :=
  ∀ v ∈ V, ∃ a, d v = some a

/-- The spec's concrete scenario graph (vertices 0..3, edges 0→1 w=1,
1→2 w=2, 0→2 w=5, 2→3 w=1) as a `dijkstra.py` graph. -/
def gDJ4 : DJ.Graph :=
  ⟨[⟨0, [⟨0, 1, 1⟩, ⟨0, 2, 5⟩]⟩, ⟨1, [⟨1, 2, 2⟩]⟩, ⟨2, [⟨2, 3, 1⟩]⟩, ⟨3, []⟩]⟩

/-- The same concrete scenario graph as a `bellman-ford.py` graph. -/
def gBF4 : BF.Graph :=
  ⟨[0, 1, 2, 3], [⟨0, 1, 1⟩, ⟨1, 2, 2⟩, ⟨0, 2, 5⟩, ⟨2, 3, 1⟩]⟩

/-- The spec's negative-cycle scenario: vertices 0 and 1, edges 0→1 and
1→0, both of weight -1. -/
def gNC : BF.Graph :=
  ⟨[0, 1], [⟨0, 1, -1⟩, ⟨1, 0, -1⟩]⟩

/-- A one-vertex, edge-free `bellman-ford.py` graph. -/
def gOne : BF.Graph :=
  ⟨[0], []⟩

/-- A graph whose source node 0 carries a self-loop of weight 3 listed
before an edge 0→2 of weight 5. -/
def gSelf : DJ.Graph :=
  ⟨[⟨0, [⟨0, 0, 3⟩, ⟨0, 2, 5⟩]⟩, ⟨2, []⟩]⟩

/-- A graph with a 2-cycle 0→1→0 of weight 1 each and an isolated vertex 2,
on which a `dijkstra` run from 0 towards 2 overwrites the source's
distance. -/
def gC4 : DJ.Graph :=
  ⟨[⟨0, [⟨0, 1, 1⟩]⟩, ⟨1, [⟨1, 0, 1⟩]⟩, ⟨2, []⟩]⟩

/-- The spec's negative-cycle pair 0→1 (w=-1), 1→0 (w=-1) plus one stray
edge 5→0 (w=0) whose source id 5 is not in the declared vertex set
{0, 1}: the `bellman-ford.py` data model permits such an edge, and
relaxing it reads the absent key `dists[5]`. -/
def gStray : BF.Graph :=
  ⟨[0, 1], [⟨0, 1, -1⟩, ⟨1, 0, -1⟩, ⟨5, 0, 0⟩]⟩

/-- Invariant of `dijkstra`'s main loop used for its error analysis: the
state reads the original graph and target; every queued id has a finite
recorded distance (so relaxing from it cannot raise `TypeError`); and the
`prevs` dict has entries only for declared vertex ids (relaxation writes a
`prevs` entry only after successfully reading it). -/
def djINV (g : DJ.Graph) (t : ℤ) (s : DJ.S) : Prop :=
  s.g = g ∧ s.endID = t
    ∧ (∀ p ∈ s.pq, ∃ z : ℤ, s.dists p.2 = some (some z))
    ∧ (∀ v : ℤ, s.prevs v ≠ none → v ∈ DJ.ids g)

/-- Termination potential of `dijkstra`'s main loop: the queue length plus
the number of declared vertices whose `prevs` entry still stores `None`.
Every `put` after a pop accompanies one such entry flipping to a node id,
so the potential strictly decreases at each iteration. -/
def djPhi (s : DJ.S) : Nat :=
  s.pq.length + (DJ.ids s.g).countP (fun v => decide (s.prevs v = some none))

/-! Basic lemmas about the dict model and the distance-value order. -/

theorem dget_of_some {α : Type} {d : Dict α} {k : ℤ} {v : α} (h : d k = some v) :
    dget d k = .ok v := by
  unfold dget
  rw [h]

theorem dget_of_none {α : Type} {d : Dict α} {k : ℤ} (h : d k = none) :
    dget d k = .error (.keyError k) := by
  unfold dget
  rw [h]

theorem dget_ok_inv {α : Type} {d : Dict α} {k : ℤ} {v : α} (h : dget d k = .ok v) :
    d k = some v := by
  unfold dget at h
  cases hd : d k with
  | none => rw [hd] at h; cases h
  | some w => rw [hd] at h; cases h; rfl

theorem dset_self {α : Type} (d : Dict α) (k : ℤ) (v : α) : dset d k v k = some v := by
  unfold dset
  rw [if_pos rfl]

theorem dset_ne {α : Type} (d : Dict α) (k : ℤ) (v : α) {x : ℤ} (h : x ≠ k) :
    dset d k v x = d x := by
  unfold dset
  rw [if_neg h]

theorem vle_refl (a : Val) : vle a a := by
  cases a with
  | inf => trivial
  | fin z => exact le_refl z

theorem vle_trans {a b c : Val} (h1 : vle a b) (h2 : vle b c) : vle a c := by
  cases c with
  | inf => cases a <;> trivial
  | fin z =>
    cases b with
    | inf => exact absurd h2 (by simp [vle])
    | fin y =>
      cases a with
      | inf => exact absurd h1 (by simp [vle])
      | fin x => exact le_trans h1 h2

theorem vle_of_vLt {a b : Val} (h : vLt a b = true) : vle a b := by
  cases a with
  | inf => simp [vLt] at h
  | fin x =>
    cases b with
    | inf => trivial
    | fin y =>
      simp [vLt] at h
      exact le_of_lt h

theorem vle_fin_inv {b : Val} {x : ℤ} (h : vle b (.fin x)) :
    ∃ a : ℤ, b = .fin a ∧ a ≤ x := by
  cases b with
  | inf => exact absurd h (by simp [vle])
  | fin a => exact ⟨a, rfl, h⟩

/-! Lemmas about the relaxation passes of `bellman_ford`. -/

theorem relaxEdge_ok_inv {s s' : BF.S} {e : BF.Edge} (h : BF.relaxEdge s e = .ok s') :
    s'.g = s.g ∧ ∀ v a, s.dists v = some a → ∃ b, s'.dists v = some b ∧ vle b a := by
  unfold BF.relaxEdge at h
  cases h1 : dget s.dists e.source with
  | error er => simp only [h1] at h; exact Except.noConfusion h
  | ok ds =>
    simp only [h1] at h
    cases h2 : dget s.dists e.dest with
    | error er => simp only [h2] at h; exact Except.noConfusion h
    | ok dd =>
      simp only [h2] at h
      cases hvc : vLt (vAdd ds e.weight) dd with
      | false =>
        simp only [hvc, Bool.false_eq_true, if_false] at h
        cases h
        exact ⟨rfl, fun v a hv => ⟨a, hv, vle_refl a⟩⟩
      | true =>
        simp only [hvc, if_true] at h
        cases h
        refine ⟨rfl, fun v a hv => ?_⟩
        dsimp only
        by_cases hvd : v = e.dest
        · subst hvd
          have hdd : s.dists e.dest = some dd := dget_ok_inv h2
          rw [hv] at hdd
          obtain rfl : a = dd := Option.some.inj hdd
          exact ⟨vAdd ds e.weight, dset_self s.dists e.dest (vAdd ds e.weight),
            vle_of_vLt hvc⟩
        · exact ⟨a, by rw [dset_ne _ _ _ hvd]; exact hv, vle_refl a⟩

theorem relaxEdges_ok_inv :
    ∀ (es : List BF.Edge) (s s' : BF.S), BF.relaxEdges es s = .ok s' →
      s'.g = s.g ∧ ∀ v a, s.dists v = some a → ∃ b, s'.dists v = some b ∧ vle b a := by
  intro es
  induction es with
  | nil =>
    intro s s' h
    cases h
    exact ⟨rfl, fun v a hv => ⟨a, hv, vle_refl a⟩⟩
  | cons e es ih =>
    intro s s' h
    unfold BF.relaxEdges at h
    cases h1 : BF.relaxEdge s e with
    | error er => rw [h1] at h; cases h
    | ok s1 =>
      rw [h1] at h
      obtain ⟨hg1, hd1⟩ := relaxEdge_ok_inv h1
      obtain ⟨hg2, hd2⟩ := ih s1 s' h
      refine ⟨hg2.trans hg1, fun v a hv => ?_⟩
      obtain ⟨b, hb, hba⟩ := hd1 v a hv
      obtain ⟨c, hc, hcb⟩ := hd2 v b hb
      exact ⟨c, hc, vle_trans hcb hba⟩

theorem relaxPasses_ok_inv :
    ∀ (n : Nat) (s s' : BF.S), BF.relaxPasses n s = .ok s' →
      s'.g = s.g ∧ ∀ v a, s.dists v = some a → ∃ b, s'.dists v = some b ∧ vle b a := by
  intro n
  induction n with
  | zero =>
    intro s s' h
    cases h
    exact ⟨rfl, fun v a hv => ⟨a, hv, vle_refl a⟩⟩
  | succ n ih =>
    intro s s' h
    unfold BF.relaxPasses at h
    cases h1 : BF.relaxEdges s.g.edges s with
    | error er => rw [h1] at h; cases h
    | ok s1 =>
      rw [h1] at h
      obtain ⟨hg1, hd1⟩ := relaxEdges_ok_inv _ _ _ h1
      obtain ⟨hg2, hd2⟩ := ih s1 s' h
      refine ⟨hg2.trans hg1, fun v a hv => ?_⟩
      obtain ⟨b, hb, hba⟩ := hd1 v a hv
      obtain ⟨c, hc, hcb⟩ := hd2 v b hb
      exact ⟨c, hc, vle_trans hcb hba⟩

theorem bellman_ford_ok_inv {g : BF.Graph} {start_id : ℤ}
    {dp : Dict Val × Dict (Option ℤ)} (h : BF.bellman_ford g start_id = .ok dp) :
    ∃ s1, BF.relaxPasses (g.vertices.length - 1) (BF.initState g start_id) = .ok s1 ∧
      dp.1 = s1.dists ∧ dp.2 = s1.prevs := by
  unfold BF.bellman_ford at h
  cases h1 : BF.relaxPasses (g.vertices.length - 1) (BF.initState g start_id) with
  | error er => simp only [h1] at h; exact Except.noConfusion h
  | ok s1 =>
    simp only [h1] at h
    cases h2 : BF.checkEdges s1.g.edges s1.dists with
    | error er => simp only [h2] at h; exact Except.noConfusion h
    | ok u => simp only [h2] at h; cases h; exact ⟨s1, rfl, rfl, rfl⟩

theorem initState_dists_eq (g : BF.Graph) (start_id v : ℤ) :
    (BF.initState g start_id).dists v =
      if v = start_id then some (Val.fin 0)
      else if v ∈ g.vertices then some Val.inf else none := rfl

theorem initState_dists_start (g : BF.Graph) (start_id : ℤ) :
    (BF.initState g start_id).dists start_id = some (.fin 0) := by
  rw [initState_dists_eq, if_pos rfl]

theorem initState_hasKeys (g : BF.Graph) (start_id : ℤ) :
    hasKeysBF (BF.initState g start_id).dists g.vertices := by
  intro v hv
  rw [initState_dists_eq]
  by_cases h : v = start_id
  · rw [if_pos h]; exact ⟨.fin 0, rfl⟩
  · rw [if_neg h, if_pos hv]; exact ⟨.inf, rfl⟩

theorem relaxEdge_ok_exists {s : BF.S} {e : BF.Edge} {V : List ℤ}
    (hk : hasKeysBF s.dists V) (hsrc : e.source ∈ V) (hdst : e.dest ∈ V) :
    ∃ s', BF.relaxEdge s e = .ok s' := by
  obtain ⟨a, ha⟩ := hk e.source hsrc
  obtain ⟨b, hb⟩ := hk e.dest hdst
  unfold BF.relaxEdge
  rw [dget_of_some ha, dget_of_some hb]
  cases hvc : vLt (vAdd a e.weight) b with
  | false => simp only [hvc, Bool.false_eq_true, if_false]; exact ⟨s, rfl⟩
  | true => simp only [hvc, if_true]; exact ⟨_, rfl⟩

theorem relaxEdges_ok_exists {V : List ℤ} :
    ∀ (es : List BF.Edge) (s : BF.S),
      (∀ e ∈ es, e.source ∈ V ∧ e.dest ∈ V) → hasKeysBF s.dists V →
      ∃ s', BF.relaxEdges es s = .ok s' := by
  intro es
  induction es with
  | nil => intro s _ _; exact ⟨s, rfl⟩
  | cons e es ih =>
    intro s hes hk
    obtain ⟨s1, hs1⟩ := relaxEdge_ok_exists hk (hes e (by simp)).1 (hes e (by simp)).2
    have hk1 : hasKeysBF s1.dists V := by
      intro v hv
      obtain ⟨a, ha⟩ := hk v hv
      obtain ⟨b, hb, _⟩ := (relaxEdge_ok_inv hs1).2 v a ha
      exact ⟨b, hb⟩
    obtain ⟨s', hs'⟩ := ih s1 (fun e' he' => hes e' (by simp [he'])) hk1
    refine ⟨s', ?_⟩
    unfold BF.relaxEdges
    rw [hs1]
    exact hs'

theorem relaxPasses_ok_exists {g : BF.Graph}
    (hwf : ∀ e ∈ g.edges, e.source ∈ g.vertices ∧ e.dest ∈ g.vertices) :
    ∀ (n : Nat) (s : BF.S), s.g = g → hasKeysBF s.dists g.vertices →
      ∃ s', BF.relaxPasses n s = .ok s' := by
  intro n
  induction n with
  | zero => intro s _ _; exact ⟨s, rfl⟩
  | succ n ih =>
    intro s hg hk
    obtain ⟨s1, hs1⟩ := relaxEdges_ok_exists s.g.edges s (by rw [hg]; exact hwf) hk
    obtain ⟨hg1, hd1⟩ := relaxEdges_ok_inv _ _ _ hs1
    have hk1 : hasKeysBF s1.dists g.vertices := by
      intro v hv
      obtain ⟨a, ha⟩ := hk v hv
      obtain ⟨b, hb, _⟩ := hd1 v a ha
      exact ⟨b, hb⟩
    obtain ⟨s', hs'⟩ := ih s1 (hg1.trans hg) hk1
    refine ⟨s', ?_⟩
    unfold BF.relaxPasses
    rw [hs1]
    exact hs'

/-! Lemmas about the verification scan of `bellman_ford`. -/

theorem checkEdges_cases :
    ∀ (es : List BF.Edge) (d : Dict Val),
      (∀ e ∈ es, (∃ a, d e.source = some a) ∧ (∃ b, d e.dest = some b)) →
      BF.checkEdges es d = .ok () ∨
        ∃ e, e ∈ es ∧ BF.checkEdges es d = .error (.negativeEdgeCycleError e.source e.dest) := by
  intro es
  induction es with
  | nil => intro d _; exact Or.inl rfl
  | cons e es ih =>
    intro d hes
    obtain ⟨⟨a, ha⟩, ⟨b, hb⟩⟩ := hes e (by simp)
    have hstep : BF.checkEdges (e :: es) d =
        if vLt (vAdd a e.weight) b then .error (.negativeEdgeCycleError e.source e.dest)
        else BF.checkEdges es d := by
      simp only [BF.checkEdges, dget_of_some ha, dget_of_some hb]
    cases hvc : vLt (vAdd a e.weight) b with
    | true =>
      refine Or.inr ⟨e, by simp, ?_⟩
      rw [hstep, hvc]
      simp
    | false =>
      rw [hstep, hvc]
      simp only [Bool.false_eq_true, if_false]
      rcases ih d (fun e' he' => hes e' (by simp [he'])) with h | ⟨e', he', h⟩
      · exact Or.inl h
      · exact Or.inr ⟨e', by simp [he'], h⟩

theorem checkEdges_ok_feasible :
    ∀ (es : List BF.Edge) (d : Dict Val), BF.checkEdges es d = .ok () →
      ∀ e ∈ es, ∀ a b, d e.source = some a → d e.dest = some b →
        vLt (vAdd a e.weight) b = false := by
  intro es
  induction es with
  | nil => intro d _ e he; exact absurd he (List.not_mem_nil e)
  | cons e es ih =>
    intro d h e' he' a b ha hb
    unfold BF.checkEdges at h
    cases h1 : dget d e.source with
    | error er => simp only [h1] at h; exact Except.noConfusion h
    | ok ds =>
      simp only [h1] at h
      cases h2 : dget d e.dest with
      | error er => simp only [h2] at h; exact Except.noConfusion h
      | ok dd =>
        simp only [h2] at h
        cases hvc : vLt (vAdd ds e.weight) dd with
        | true =>
          simp only [hvc, if_true] at h
          exact Except.noConfusion h
        | false =>
          simp only [hvc, Bool.false_eq_true, if_false] at h
          rcases List.mem_cons.mp he' with rfl | hmem
          · have has : d e'.source = some ds := dget_ok_inv h1
            have hbs : d e'.dest = some dd := dget_ok_inv h2
            rw [ha] at has
            rw [hb] at hbs
            obtain rfl : a = ds := Option.some.inj has
            obtain rfl : b = dd := Option.some.inj hbs
            exact hvc
          · exact ih d h e' hmem a b ha hb

/-! The key bound: along any walk of the graph, a distance dict that the
verification scan accepts propagates finite upper bounds. -/

theorem walk_bound {g : BF.Graph} {d : Dict Val}
    (hfeas : ∀ e ∈ g.edges, ∀ a b, d e.source = some a → d e.dest = some b →
      vLt (vAdd a e.weight) b = false)
    (hk : hasKeysBF d g.vertices)
    (hwf : ∀ e ∈ g.edges, e.source ∈ g.vertices ∧ e.dest ∈ g.vertices) :
    ∀ (es : List BF.Edge) (u v : ℤ), BF.isWalk g u es v = true →
      ∀ x : ℤ, d u = some (.fin x) →
        ∃ y : ℤ, d v = some (.fin y) ∧ y ≤ x + BF.walkWeight es := by
  intro es
  induction es with
  | nil =>
    intro u v hw x hx
    have huv : u = v := by
      have := hw
      unfold BF.isWalk at this
      exact of_decide_eq_true this
    subst huv
    exact ⟨x, hx, by simp [BF.walkWeight]⟩
  | cons e es ih =>
    intro u v hw x hx
    unfold BF.isWalk at hw
    rw [Bool.and_eq_true, Bool.and_eq_true] at hw
    obtain ⟨⟨hmem, hsrc⟩, hrest⟩ := hw
    have hmem' : e ∈ g.edges := of_decide_eq_true hmem
    have hsrc' : e.source = u := of_decide_eq_true hsrc
    obtain ⟨b, hb⟩ := hk e.dest (hwf e hmem').2
    have hfe := hfeas e hmem' (.fin x) b (by rw [hsrc']; exact hx) hb
    cases b with
    | inf => exact absurd hfe (by simp [vAdd, vLt])
    | fin y' =>
      have hy' : y' ≤ x + e.weight := by
        have : ¬ (x + e.weight < y') := by
          intro hlt
          rw [show vLt (vAdd (.fin x) e.weight) (.fin y') = decide (x + e.weight < y') from rfl]
            at hfe
          rw [decide_eq_true hlt] at hfe
          exact Bool.noConfusion hfe
        omega
      obtain ⟨y, hy, hyle⟩ := ih e.dest v hrest y' hb
      refine ⟨y, hy, ?_⟩
      have hww : BF.walkWeight (e :: es) = e.weight + BF.walkWeight es := by
        unfold BF.walkWeight
        simp
      omega

/-- C5 counterexample: the claim is not true of every graph containing a
reachable negative cycle.  On `gStray` — the spec's reachable negative
cycle 0→1→0 (weights -1) from source 0, plus one stray edge 5→0 whose
source id is not declared — `bellman_ford(g, 0)` raises `KeyError(5)` when
the first pass reads `dists[5]`, not `NegativeEdgeCycleError`. -/
theorem bellman_ford_stray_edge_keyerror_cex :
    BF.isWalk gStray 0 [] 0 = true
    ∧ BF.isWalk gStray 0 [⟨0, 1, -1⟩, ⟨1, 0, -1⟩] 0 = true
    ∧ BF.walkWeight [(⟨0, 1, -1⟩ : BF.Edge), ⟨1, 0, -1⟩] < 0
    ∧ BF.bellman_ford gStray 0 = .error (.keyError 5)
    ∧ BF.isNegCycleFrom gStray (BF.bellman_ford gStray 0) = false :=
  ⟨by decide, by decide, by decide, rfl, rfl⟩

/-- C5 (amended): for every graph whose edges stay within the declared
vertex set and that contains a negative-weight cycle reachable from the
source, `bellman_ford` raises `NegativeEdgeCycleError` carrying the
endpoints of an edge of the graph (the first edge the verification scan
finds still admitting improvement after the `|V|-1` passes), and hence
does not return distance/predecessor maps.  Without the edge-closure
condition the run can instead fail with a `KeyError` for an undeclared
endpoint id, as the counterexample shows. -/
theorem bellman_ford_detects_reachable_negative_cycle
    (g : BF.Graph) (s0 c0 : ℤ) (w1 cyc : List BF.Edge)
    (hwf : ∀ e ∈ g.edges, e.source ∈ g.vertices ∧ e.dest ∈ g.vertices)
    (hw1 : BF.isWalk g s0 w1 c0 = true)
    (hcyc : BF.isWalk g c0 cyc c0 = true)
    (hneg : BF.walkWeight cyc < 0) :
    BF.isNegCycleFrom g (BF.bellman_ford g s0) = true := by
  obtain ⟨s1, hs1⟩ := relaxPasses_ok_exists hwf (g.vertices.length - 1)
    (BF.initState g s0) rfl (initState_hasKeys g s0)
  obtain ⟨hg1, hd1⟩ := relaxPasses_ok_inv _ _ _ hs1
  have hk1 : hasKeysBF s1.dists g.vertices := by
    intro v hv
    obtain ⟨a, ha⟩ := initState_hasKeys g s0 v hv
    obtain ⟨b, hb, _⟩ := hd1 v a ha
    exact ⟨b, hb⟩
  obtain ⟨b0, hb0, hble⟩ := hd1 s0 (.fin 0) (initState_dists_start g s0)
  obtain ⟨a0, rfl, ha0⟩ := vle_fin_inv hble
  have hexist : ∀ e ∈ s1.g.edges,
      (∃ a, s1.dists e.source = some a) ∧ (∃ b, s1.dists e.dest = some b) := by
    intro e he
    rw [hg1] at he
    exact ⟨hk1 e.source (hwf e he).1, hk1 e.dest (hwf e he).2⟩
  rcases checkEdges_cases s1.g.edges s1.dists hexist with hok | ⟨e, he, herr⟩
  · exfalso
    have hfeas := checkEdges_ok_feasible s1.g.edges s1.dists hok
    have hfeas' : ∀ e ∈ g.edges, ∀ a b, s1.dists e.source = some a →
        s1.dists e.dest = some b → vLt (vAdd a e.weight) b = false := by
      intro e he
      exact hfeas e (by rw [hg1]; exact he)
    obtain ⟨y0, hy0, _⟩ := walk_bound hfeas' hk1 hwf w1 s0 c0 hw1 a0 hb0
    obtain ⟨y1, hy1, hy1le⟩ := walk_bound hfeas' hk1 hwf cyc c0 c0 hcyc y0 hy0
    rw [hy0] at hy1
    have heq : Val.fin y0 = Val.fin y1 := Option.some.inj hy1
    have heq' : y0 = y1 := by injection heq
    omega
  · have hbf : BF.bellman_ford g s0 =
        .error (.negativeEdgeCycleError e.source e.dest) := by
      unfold BF.bellman_ford
      simp only [hs1, herr]
    rw [hbf]
    simp only [BF.isNegCycleFrom]
    rw [List.any_eq_true]
    refine ⟨e, ?_, by simp⟩
    rw [hg1] at he
    exact he

/-- Witness for C5 at the spec's concrete scenario: vertices 0 and 1 with
the two weight -1 edges form a negative cycle at 0, reachable from source 0
by the empty walk, and `bellman_ford` raises accordingly. -/
theorem bellman_ford_detects_reachable_negative_cycle_witness :
    (∀ e ∈ gNC.edges, e.source ∈ gNC.vertices ∧ e.dest ∈ gNC.vertices) ∧
      BF.isWalk gNC 0 [] 0 = true ∧
      BF.isWalk gNC 0 [⟨0, 1, -1⟩, ⟨1, 0, -1⟩] 0 = true ∧
      BF.walkWeight [(⟨0, 1, -1⟩ : BF.Edge), ⟨1, 0, -1⟩] < 0 ∧
      BF.isNegCycleFrom gNC (BF.bellman_ford gNC 0) = true :=
  ⟨by decide, by decide, by decide, by decide,
    bellman_ford_detects_reachable_negative_cycle gNC 0 0 []
      [⟨0, 1, -1⟩, ⟨1, 0, -1⟩] (by decide) (by decide) (by decide)
      (by decide)⟩

/-- C4 counterexample: on the graph `gC4` (edges 0→1 and 1→0 of weight 1,
isolated vertex 2) the `dijkstra` run from source 0 towards target 2 has,
after two loop iterations, overwritten the source's recorded distance with
2 > 0 (the relaxation of edge 1→0 fires because `prevs[0]` is still
`None`), while the run itself completes normally; so the recorded distance
of the source does exceed 0 at a later point during the run. -/
theorem dijkstra_source_dist_exceeds_zero_cex :
    Except.map (fun s => DJ.S.dists s 0) (DJ.dsteps 2 (DJ.loopStart gC4 0 2)) =
        .ok (some (some 2))
    ∧ DJ.dijkstra gC4 0 2 = .ok (none, none)
    ∧ ¬ ((2 : ℤ) ≤ 0) :=
  ⟨rfl, rfl, by decide⟩

/-- C4 (amended): both algorithms record distance 0 for the source
immediately after initialization; in `bellman_ford` the source's recorded
distance stays finite and never exceeds 0 after any sequence of edge
relaxations (in particular at every point of every pass and in the returned
distance map); in `dijkstra` the claim holds at initialization only (the
recorded source distance can later exceed 0, see the counterexample). -/
theorem source_dist_invariant_amended :
    (∀ (g : BF.Graph) (s0 : ℤ), (BF.initState g s0).dists s0 = some (.fin 0))
    ∧ (∀ (g : BF.Graph) (s0 : ℤ) (es : List BF.Edge) (s' : BF.S),
        BF.relaxEdges es (BF.initState g s0) = .ok s' →
        distLeZero (s'.dists s0) = true)
    ∧ (∀ (g : BF.Graph) (s0 : ℤ) (dp : Dict Val × Dict (Option ℤ)),
        BF.bellman_ford g s0 = .ok dp → distLeZero (dp.1 s0) = true)
    ∧ (∀ (g : DJ.Graph) (s0 : ℤ), DJ.initDists g s0 s0 = some (some 0)) := by
  refine ⟨fun g s0 => initState_dists_start g s0, ?_, ?_, ?_⟩
  · intro g s0 es s' h
    obtain ⟨b, hb, hble⟩ :=
      (relaxEdges_ok_inv es _ s' h).2 s0 (.fin 0) (initState_dists_start g s0)
    obtain ⟨a, rfl, ha⟩ := vle_fin_inv hble
    rw [hb]
    simp [distLeZero, ha]
  · intro g s0 dp h
    obtain ⟨s1, hs1, hd, _⟩ := bellman_ford_ok_inv h
    obtain ⟨b, hb, hble⟩ :=
      (relaxPasses_ok_inv _ _ s1 hs1).2 s0 (.fin 0) (initState_dists_start g s0)
    obtain ⟨a, rfl, ha⟩ := vle_fin_inv hble
    rw [hd, hb]
    simp [distLeZero, ha]
  · intro g s0
    exact dset_self (fun v => if v ∈ DJ.ids g then some none else none) s0 (some 0)

/-- Witness for C4's amended statement at concrete inputs: the one-vertex
graph `gOne` with the empty relaxation sequence and its (trivially
convergent) `bellman_ford` run, and the concrete `dijkstra` scenario graph
for the initialization conjunct. -/
theorem source_dist_invariant_amended_witness :
    (BF.initState gOne 0).dists 0 = some (.fin 0)
    ∧ BF.relaxEdges [] (BF.initState gOne 0) = .ok (BF.initState gOne 0)
    ∧ distLeZero ((BF.initState gOne 0).dists 0) = true
    ∧ BF.bellman_ford gOne 0 =
        .ok ((BF.initState gOne 0).dists, (BF.initState gOne 0).prevs)
    ∧ distLeZero (((BF.initState gOne 0).dists, (BF.initState gOne 0).prevs).1 0) = true
    ∧ DJ.initDists gDJ4 0 0 = some (some 0) :=
  ⟨source_dist_invariant_amended.1 gOne 0, rfl,
    source_dist_invariant_amended.2.1 gOne 0 [] _ rfl,
    rfl,
    source_dist_invariant_amended.2.2.1 gOne 0 _ rfl,
    source_dist_invariant_amended.2.2.2 gDJ4 0⟩

/-- C1: on the spec's concrete scenario graph (vertices 0..3, edges 0→1
w=1, 1→2 w=2, 0→2 w=5, 2→3 w=1), `dijkstra(g, 0, 3)` returns the path
`[0, 2, 3]` with distance 6 — not the shortest path `[0, 1, 2, 3]` with
distance 4 that the claim states: vertex 2 is first discovered through the
weight-5 edge and, once its `prevs` entry is set, is never improved. -/
theorem dijkstra_concrete_scenario_result :
    DJ.dijkstra gDJ4 0 3 = .ok (some [0, 2, 3], some 6)
    ∧ DJ.dijkstra gDJ4 0 3 ≠ .ok (some [0, 1, 2, 3], some 4) :=
  ⟨rfl, by decide⟩

/-- C2: `dijkstra` with `source == target` returns `(None, None)` — the
"no path" result — not `([source], 0)` as the claim states: the first pop
breaks out of the loop before any relaxation, so `prevs[endID]` is still
`None` and the no-path branch is taken, even though `dists[source]` was
explicitly set to 0.  Shown on the spec's scenario graph and on a
one-vertex graph. -/
theorem dijkstra_source_eq_target_result :
    DJ.dijkstra gDJ4 0 0 = .ok (none, none)
    ∧ DJ.dijkstra ⟨[⟨0, []⟩]⟩ 0 0 = .ok (none, none)
    ∧ DJ.dijkstra gDJ4 0 0 ≠ .ok (some [0], some 0) :=
  ⟨rfl, rfl, by decide⟩

/-- C3: on the spec's concrete scenario graph the two algorithms disagree
where a path exists: `bellman_ford` from 0 computes the true shortest
distances {0:0, 1:1, 2:3, 3:4}, while `dijkstra(g, 0, 3)` reports distance
6 to vertex 3. -/
theorem bellman_ford_vs_dijkstra_concrete :
    Except.map (fun dp => (dp.1 0, dp.1 1, dp.1 2, dp.1 3)) (BF.bellman_ford gBF4 0) =
        .ok (some (.fin 0), some (.fin 1), some (.fin 3), some (.fin 4))
    ∧ DJ.dijkstra gDJ4 0 3 = .ok (some [0, 2, 3], some 6)
    ∧ (Val.fin 4 : Val) ≠ .fin 6 :=
  ⟨rfl, rfl, by decide⟩

/-- C7: on the graph `gSelf`, whose source node 0 has the self-loop
0→0 w=3 listed before the edge 0→2 w=5, `dijkstra(g, 0, 2)` returns the
path `[0, 2]` with reported distance 8, but the weight of the single
traversed edge is 5: the self-loop relaxation overwrites `dists[0]` to 3
before the edge 0→2 is relaxed, so the reported distance is not the sum of
the weights of the edges along the returned path. -/
theorem dijkstra_self_loop_path_weight_mismatch :
    DJ.dijkstra gSelf 0 2 = .ok (some [0, 2], some 8)
    ∧ DJ.pathWeight gSelf [0, 2] = some 5
    ∧ ((5 : ℤ) : Option ℤ) ≠ some 8 :=
  ⟨rfl, rfl, by decide⟩

/-- C8: both searches are deterministic — two runs on the same graph with
the same source (and target) produce identical outcomes.  In this pure
embedding the only potential sources of run-to-run variation in the Python
code (dict iteration order, heap tie-breaking on equal `(priority, id)`
tuples) are resolved identically on every run, so each algorithm is a
function of its arguments. -/
theorem shortest_path_algorithms_deterministic :
    (∀ (g : BF.Graph) (s0 : ℤ), BF.bellman_ford g s0 = BF.bellman_ford g s0)
    ∧ (∀ (g : DJ.Graph) (s0 t0 : ℤ), DJ.dijkstra g s0 t0 = DJ.dijkstra g s0 t0) :=
  ⟨fun _ _ => rfl, fun _ _ _ => rfl⟩

/-- C10: for a graph whose declared vertex set is exactly one vertex `v`
carrying a negative-weight self-loop, `bellman_ford` from `v` performs zero
relaxation passes (`|V| - 1 = 0`, so the pass loop returns the initial
state unchanged) yet still raises `NegativeEdgeCycleError(v, v)` from the
verification scan, which runs unconditionally over all edges. -/
theorem bellman_ford_single_vertex_negative_self_loop (v w : ℤ) (hw : w < 0) :
    (BF.Graph.mk [v] [⟨v, v, w⟩]).vertices.length - 1 = 0
    ∧ BF.relaxPasses ((BF.Graph.mk [v] [⟨v, v, w⟩]).vertices.length - 1)
        (BF.initState ⟨[v], [⟨v, v, w⟩]⟩ v) = .ok (BF.initState ⟨[v], [⟨v, v, w⟩]⟩ v)
    ∧ BF.bellman_ford ⟨[v], [⟨v, v, w⟩]⟩ v = .error (.negativeEdgeCycleError v v) := by
  refine ⟨rfl, rfl, ?_⟩
  have hd : (BF.initState (⟨[v], [⟨v, v, w⟩]⟩ : BF.Graph) v).dists v = some (.fin 0) :=
    initState_dists_start _ v
  have hchk : BF.checkEdges
      (BF.initState (⟨[v], [⟨v, v, w⟩]⟩ : BF.Graph) v).g.edges
      (BF.initState (⟨[v], [⟨v, v, w⟩]⟩ : BF.Graph) v).dists
      = .error (.negativeEdgeCycleError v v) := by
    show BF.checkEdges [⟨v, v, w⟩]
      (BF.initState (⟨[v], [⟨v, v, w⟩]⟩ : BF.Graph) v).dists = _
    simp only [BF.checkEdges, dget_of_some hd]
    have : vLt (vAdd (.fin 0) w) (.fin 0) = true := by
      simp [vAdd, vLt]
      omega
    rw [this]
    simp
  unfold BF.bellman_ford
  simp only [List.length_cons, List.length_nil, Nat.zero_add, Nat.sub_self]
  simp only [BF.relaxPasses]
  rw [hchk]

/-- Witness for C10 at `v = 0`, `w = -1`. -/
theorem bellman_ford_single_vertex_negative_self_loop_witness :
    (-1 : ℤ) < 0
    ∧ ((BF.Graph.mk [0] [⟨0, 0, -1⟩]).vertices.length - 1 = 0
      ∧ BF.relaxPasses ((BF.Graph.mk [0] [⟨0, 0, -1⟩]).vertices.length - 1)
          (BF.initState ⟨[0], [⟨0, 0, -1⟩]⟩ 0) = .ok (BF.initState ⟨[0], [⟨0, 0, -1⟩]⟩ 0)
      ∧ BF.bellman_ford ⟨[0], [⟨0, 0, -1⟩]⟩ 0 = .error (.negativeEdgeCycleError 0 0)) :=
  ⟨by decide, bellman_ford_single_vertex_negative_self_loop 0 (-1) (by decide)⟩

/-! Frame lemmas: no step of either algorithm changes the graph (or, for
`dijkstra`, the target id) held in the loop state. -/

theorem relaxOne_frame {s s' : DJ.S} {cid : ℤ} {e : DJ.Edge}
    (h : DJ.relaxOne s cid e = .ok s') : s'.g = s.g ∧ s'.endID = s.endID := by
  unfold DJ.relaxOne at h
  cases h1 : dget s.prevs e.dest with
  | error er => simp only [h1] at h; exact Except.noConfusion h
  | ok pv =>
    simp only [h1] at h
    cases pv with
    | some u => cases h; exact ⟨rfl, rfl⟩
    | none =>
      cases h2 : dget s.dists cid with
      | error er => simp only [h2] at h; exact Except.noConfusion h
      | ok dc =>
        simp only [h2] at h
        cases dc with
        | none => exact Except.noConfusion h
        | some z => cases h; exact ⟨rfl, rfl⟩

theorem relaxAll_frame :
    ∀ (es : List DJ.Edge) (s : DJ.S) (cid : ℤ) (s' : DJ.S),
      DJ.relaxAll s cid es = .ok s' → s'.g = s.g ∧ s'.endID = s.endID := by
  intro es
  induction es with
  | nil =>
    intro s cid s' h
    cases h
    exact ⟨rfl, rfl⟩
  | cons e es ih =>
    intro s cid s' h
    unfold DJ.relaxAll at h
    cases h1 : DJ.relaxOne s cid e with
    | error er => simp only [h1] at h; exact Except.noConfusion h
    | ok s1 =>
      simp only [h1] at h
      obtain ⟨hg1, he1⟩ := relaxOne_frame h1
      obtain ⟨hg2, he2⟩ := ih s1 cid s' h
      exact ⟨hg2.trans hg1, he2.trans he1⟩

theorem dstep_frame {s : DJ.S} {r : DJ.StepRes} (h : DJ.dstep s = .ok r) :
    (∀ s', r = .next s' → s'.g = s.g ∧ s'.endID = s.endID) ∧
      (∀ s', r = .exit s' → s'.g = s.g ∧ s'.endID = s.endID) := by
  unfold DJ.dstep at h
  cases hq : s.pq with
  | nil =>
    simp only [hq] at h
    cases h
    exact ⟨fun s' h' => DJ.StepRes.noConfusion h',
      fun s' h' => by cases DJ.StepRes.exit.inj h'; exact ⟨rfl, rfl⟩⟩
  | cons qe rest =>
    simp only [hq] at h
    cases h1 : DJ.lookNode s.g qe.2 with
    | error er => simp only [h1] at h; exact Except.noConfusion h
    | ok currentNode =>
      simp only [h1] at h
      by_cases hc : qe.2 = s.endID
      · rw [if_pos hc] at h
        cases h
        exact ⟨fun s' h' => DJ.StepRes.noConfusion h',
          fun s' h' => by cases DJ.StepRes.exit.inj h'; exact ⟨rfl, rfl⟩⟩
      · rw [if_neg hc] at h
        cases h2 : DJ.relaxAll { s with pq := rest } currentNode.id currentNode.edges with
        | error er => simp only [h2] at h; exact Except.noConfusion h
        | ok s1 =>
          simp only [h2] at h
          cases h
          refine ⟨fun s' h' => ?_, fun s' h' => DJ.StepRes.noConfusion h'⟩
          cases DJ.StepRes.next.inj h'
          exact relaxAll_frame currentNode.edges { s with pq := rest } currentNode.id s1 h2

theorem dloop_frame :
    ∀ (f : Nat) (s s' : DJ.S), DJ.dloop f s = .ok s' →
      s'.g = s.g ∧ s'.endID = s.endID := by
  intro f
  induction f with
  | zero => intro s s' h; exact Except.noConfusion h
  | succ f ih =>
    intro s s' h
    unfold DJ.dloop at h
    cases h1 : DJ.dstep s with
    | error er => simp only [h1] at h; exact Except.noConfusion h
    | ok r =>
      simp only [h1] at h
      cases r with
      | exit s1 =>
        cases h
        exact (dstep_frame h1).2 s' rfl
      | next s1 =>
        obtain ⟨hg1, he1⟩ := (dstep_frame h1).1 s1 rfl
        obtain ⟨hg2, he2⟩ := ih s1 s' h
        exact ⟨hg2.trans hg1, he2.trans he1⟩

/-- C9: neither search mutates its input graph: along every relaxation
pass of `bellman_ford` and through the whole main loop of `dijkstra`, the
graph held in the state is returned unchanged — whether the step succeeds
or raises, the graph component of the outcome is the input graph (the
states hold the only reference the algorithms read, and no statement of
either function assigns to the graph, its nodes, or its edges). -/
theorem searches_preserve_graph :
    (∀ (es : List BF.Edge) (s : BF.S),
      Except.map BF.S.g (BF.relaxEdges es s) =
        Except.map (fun _ => s.g) (BF.relaxEdges es s))
    ∧ (∀ (n : Nat) (s : BF.S),
      Except.map BF.S.g (BF.relaxPasses n s) =
        Except.map (fun _ => s.g) (BF.relaxPasses n s))
    ∧ (∀ (f : Nat) (s : DJ.S),
      Except.map DJ.S.g (DJ.dloop f s) =
        Except.map (fun _ => s.g) (DJ.dloop f s)) := by
  refine ⟨?_, ?_, ?_⟩
  · intro es s
    cases h : BF.relaxEdges es s with
    | error er => rfl
    | ok s' =>
      simp only [Except.map]
      rw [(relaxEdges_ok_inv es s s' h).1]
  · intro n s
    cases h : BF.relaxPasses n s with
    | error er => rfl
    | ok s' =>
      simp only [Except.map]
      rw [(relaxPasses_ok_inv n s s' h).1]
  · intro f s
    cases h : DJ.dloop f s with
    | error er => rfl
    | ok s' =>
      simp only [Except.map]
      rw [(dloop_frame f s s' h).1]

/-! Lemmas about node lookup, the priority queue and the loop potential of
`dijkstra`. -/

theorem lookNode_not_mem {g : DJ.Graph} {k : ℤ} (h : k ∉ DJ.ids g) :
    DJ.lookNode g k = .error (.keyError k) := by
  unfold DJ.lookNode
  have hfind : g.nodes.find? (fun n => decide (n.id = k)) = none := by
    rw [List.find?_eq_none]
    intro n hn
    simp only [decide_eq_true_eq]
    intro hk
    exact h (by rw [← hk]; exact List.mem_map_of_mem DJ.Node.id hn)
  rw [hfind]

theorem lookNode_mem {g : DJ.Graph} {k : ℤ} (h : k ∈ DJ.ids g) :
    ∃ n, DJ.lookNode g k = .ok n ∧ n.id = k := by
  obtain ⟨n, hn, hk⟩ := List.mem_map.mp h
  have : ∃ m, g.nodes.find? (fun n => decide (n.id = k)) = some m := by
    rw [← Option.isSome_iff_exists]
    rw [List.find?_isSome]
    exact ⟨n, hn, by simp [hk]⟩
  obtain ⟨m, hm⟩ := this
  have hid : m.id = k := by
    have := List.find?_some hm
    simpa using this
  refine ⟨m, ?_, hid⟩
  unfold DJ.lookNode
  rw [hm]

theorem pqPush_length (q : List (ℤ × ℤ)) (x : ℤ × ℤ) :
    (DJ.pqPush q x).length = q.length + 1 := by
  induction q with
  | nil => rfl
  | cons y ys ih =>
    unfold DJ.pqPush
    by_cases h : DJ.pqLt x y = true
    · rw [if_pos h]
      simp
    · rw [if_neg h]
      simp only [List.length_cons]
      rw [ih]

theorem mem_pqPush {q : List (ℤ × ℤ)} {x p : ℤ × ℤ} (h : p ∈ DJ.pqPush q x) :
    p = x ∨ p ∈ q := by
  induction q with
  | nil =>
    unfold DJ.pqPush at h
    rcases List.mem_singleton.mp h with rfl
    exact Or.inl rfl
  | cons y ys ih =>
    unfold DJ.pqPush at h
    by_cases hc : DJ.pqLt x y = true
    · rw [if_pos hc] at h
      rcases List.mem_cons.mp h with rfl | h'
      · exact Or.inl rfl
      · exact Or.inr h'
    · rw [if_neg hc] at h
      rcases List.mem_cons.mp h with rfl | h'
      · exact Or.inr (List.mem_cons_self ..)
      · rcases ih h' with rfl | h''
        · exact Or.inl rfl
        · exact Or.inr (List.mem_cons_of_mem _ h'')

theorem countP_flip {l : List ℤ} {p q : ℤ → Bool} {x : ℤ} (hx : x ∈ l)
    (hpx : p x = true) (hqx : q x = false)
    (hother : ∀ y, y ≠ x → q y = p y) :
    l.countP q + 1 ≤ l.countP p := by
  induction l with
  | nil => exact absurd hx (List.not_mem_nil x)
  | cons a l ih =>
    have hmono : l.countP q ≤ l.countP p := by
      apply List.countP_mono_left
      intro b _ hb
      by_cases hbx : b = x
      · rw [hbx] at hb; rw [hqx] at hb; exact Bool.noConfusion hb
      · rw [← hother b hbx]; exact hb
    rcases List.mem_cons.mp hx with rfl | hmem
    · rw [List.countP_cons, List.countP_cons, hpx, hqx]
      norm_num
      omega
    · by_cases hax : a = x
      · subst hax
        rw [List.countP_cons, List.countP_cons, hpx, hqx]
        norm_num
        omega
      · rw [List.countP_cons, List.countP_cons, hother a hax]
        have hih := ih hmem
        cases p a <;> norm_num <;> omega

theorem relaxOne_cases {g : DJ.Graph} {t : ℤ} {s : DJ.S} {cid : ℤ} {e : DJ.Edge}
    (hI : djINV g t s) (hc : ∃ z : ℤ, s.dists cid = some (some z)) :
    (∃ k, DJ.relaxOne s cid e = .error (.keyError k)) ∨
    (∃ s', DJ.relaxOne s cid e = .ok s' ∧ djINV g t s' ∧ djPhi s' ≤ djPhi s ∧
      ∃ z : ℤ, s'.dists cid = some (some z)) := by
  obtain ⟨hg, ht, hpq, hdom⟩ := hI
  unfold DJ.relaxOne
  cases hp : s.prevs e.dest with
  | none =>
    rw [dget_of_none hp]
    exact Or.inl ⟨e.dest, rfl⟩
  | some pv =>
    rw [dget_of_some hp]
    cases pv with
    | some u => exact Or.inr ⟨s, rfl, ⟨hg, ht, hpq, hdom⟩, le_refl _, hc⟩
    | none =>
      obtain ⟨z, hz⟩ := hc
      rw [dget_of_some hz]
      have hdest : e.dest ∈ DJ.ids g := hdom e.dest (by rw [hp]; exact Option.noConfusion)
      refine Or.inr ⟨_, rfl, ⟨hg, ht, ?_, ?_⟩, ?_, ?_⟩
      · intro p hp'
        dsimp only at hp' ⊢
        rcases mem_pqPush hp' with rfl | hmem
        · exact ⟨z + e.weight, dset_self ..⟩
        · obtain ⟨z', hz'⟩ := hpq p hmem
          by_cases hpd : p.2 = e.dest
          · rw [hpd]
            exact ⟨z + e.weight, dset_self ..⟩
          · rw [dset_ne _ _ _ hpd]
            exact ⟨z', hz'⟩
      · intro v hv
        dsimp only at hv
        by_cases hvd : v = e.dest
        · rw [hvd] at hv ⊢; exact hdest
        · rw [dset_ne _ _ _ hvd] at hv
          exact hdom v hv
      · unfold djPhi
        dsimp only
        rw [pqPush_length, hg]
        have hflip := countP_flip (l := DJ.ids g)
          (p := fun v => decide (s.prevs v = some none))
          (q := fun v => decide (dset s.prevs e.dest (some cid) v = some none))
          (x := e.dest) hdest
          (by simp [hp])
          (by simp [dset_self])
          (by intro y hy; dsimp only; rw [dset_ne _ _ _ hy])
        omega
      · dsimp only
        by_cases hcd : cid = e.dest
        · rw [hcd]
          exact ⟨z + e.weight, dset_self ..⟩
        · rw [dset_ne _ _ _ hcd]
          exact ⟨z, hz⟩

theorem relaxAll_cases {g : DJ.Graph} {t : ℤ} {cid : ℤ} :
    ∀ (es : List DJ.Edge) (s : DJ.S),
      djINV g t s → (∃ z : ℤ, s.dists cid = some (some z)) →
      (∃ k, DJ.relaxAll s cid es = .error (.keyError k)) ∨
      (∃ s', DJ.relaxAll s cid es = .ok s' ∧ djINV g t s' ∧ djPhi s' ≤ djPhi s) := by
  intro es
  induction es with
  | nil =>
    intro s hI _
    exact Or.inr ⟨s, rfl, hI, le_refl _⟩
  | cons e es ih =>
    intro s hI hc
    unfold DJ.relaxAll
    rcases relaxOne_cases (e := e) hI hc with ⟨k, hk⟩ | ⟨s1, h1, hI1, hphi1, hc1⟩
    · rw [hk]
      exact Or.inl ⟨k, rfl⟩
    · rw [h1]
      rcases ih s1 hI1 hc1 with ⟨k, hk⟩ | ⟨s', h', hI', hphi'⟩
      · exact Or.inl ⟨k, hk⟩
      · exact Or.inr ⟨s', h', hI', le_trans hphi' hphi1⟩

theorem dstep_cases {g : DJ.Graph} {t : ℤ} {s : DJ.S}
    (hI : djINV g t s) (htg : t ∉ DJ.ids g) (hne : s.pq ≠ []) :
    (∃ k, DJ.dstep s = .error (.keyError k)) ∨
    (∃ s', DJ.dstep s = .ok (.next s') ∧ djINV g t s' ∧ djPhi s' < djPhi s) := by
  obtain ⟨hg, ht, hpq, hdom⟩ := hI
  unfold DJ.dstep
  cases hq : s.pq with
  | nil => exact absurd hq hne
  | cons qe rest =>
    simp only [hq]
    by_cases hmem : qe.2 ∈ DJ.ids g
    · obtain ⟨n, hn, hnid⟩ := lookNode_mem hmem
      have hn' : DJ.lookNode s.g qe.2 = .ok n := by rw [hg]; exact hn
      simp only [hn']
      have hq2 : ¬ qe.2 = s.endID := by
        rw [ht]
        intro hcon
        exact htg (hcon ▸ hmem)
      rw [if_neg hq2]
      have hIpop : djINV g t { s with pq := rest } :=
        ⟨hg, ht, fun p hp => hpq p (by rw [hq]; exact List.mem_cons_of_mem _ hp), hdom⟩
      have hcd : ∃ z : ℤ, ({ s with pq := rest } : DJ.S).dists n.id = some (some z) := by
        rw [hnid]
        exact hpq qe (by rw [hq]; exact List.mem_cons_self ..)
      rcases relaxAll_cases n.edges _ hIpop hcd with ⟨k, hk⟩ | ⟨s', h', hI', hphi'⟩
      · simp only [hk]
        exact Or.inl ⟨k, rfl⟩
      · simp only [h']
        refine Or.inr ⟨s', rfl, hI', ?_⟩
        have hpop : djPhi ({ s with pq := rest } : DJ.S) + 1 = djPhi s := by
          unfold djPhi
          dsimp only
          rw [hq]
          simp only [List.length_cons]
          omega
        omega
    · have hn' : DJ.lookNode s.g qe.2 = .error (.keyError qe.2) := by
        rw [hg]
        exact lookNode_not_mem hmem
      simp only [hn']
      exact Or.inl ⟨qe.2, rfl⟩

theorem dloop_cases {g : DJ.Graph} {t : ℤ} (htg : t ∉ DJ.ids g) :
    ∀ (f : Nat) (s : DJ.S), djINV g t s → djPhi s < f →
      (∃ k, DJ.dloop f s = .error (.keyError k)) ∨
      (∃ s', DJ.dloop f s = .ok s' ∧ djINV g t s') := by
  intro f
  induction f with
  | zero => intro s _ h; omega
  | succ f ih =>
    intro s hI hphi
    unfold DJ.dloop
    cases hq : s.pq with
    | nil =>
      have hstep : DJ.dstep s = .ok (.exit s) := by
        unfold DJ.dstep
        rw [hq]
      simp only [hstep]
      exact Or.inr ⟨s, rfl, hI⟩
    | cons qe rest =>
      have hne : s.pq ≠ [] := by rw [hq]; intro hcon; exact List.noConfusion hcon
      rcases dstep_cases hI htg hne with ⟨k, hk⟩ | ⟨s', h', hI', hphi'⟩
      · simp only [hk]
        exact Or.inl ⟨k, rfl⟩
      · simp only [h']
        exact ih s' hI' (by omega)

theorem loopStart_INV (g : DJ.Graph) (s0 t : ℤ) : djINV g t (DJ.loopStart g s0 t) := by
  refine ⟨rfl, rfl, ?_, ?_⟩
  · intro p hp
    have hp' : p = (0, s0) := by
      simpa [DJ.loopStart, DJ.pqPush] using hp
    rw [hp']
    exact ⟨0, dset_self (fun v => if v ∈ DJ.ids g then some none else none) s0 (some 0)⟩
  · intro v hv
    dsimp only [DJ.loopStart, DJ.initPrevs] at hv
    by_cases h : v ∈ DJ.ids g
    · exact h
    · rw [if_neg h] at hv
      exact absurd rfl hv

theorem loopStart_phi (g : DJ.Graph) (s0 t : ℤ) :
    djPhi (DJ.loopStart g s0 t) < DJ.dijkstraFuel g := by
  unfold djPhi DJ.loopStart DJ.dijkstraFuel
  dsimp only
  have h2 := List.countP_le_length
    (fun v => decide (DJ.initPrevs g v = some none)) (l := DJ.ids g)
  have h3 : (DJ.ids g).length = g.nodes.length := by
    unfold DJ.ids
    rw [List.length_map]
  have h1 : (DJ.pqPush [] (0, s0)).length = 1 := rfl
  omega

/-! With an undeclared source, every `bellman_ford` distance except the
added source entry stays at infinity, so relaxation and verification are
no-ops. -/

theorem relaxEdge_noop {s : BF.S} {e : BF.Edge} (hsrc : s.dists e.source = some .inf)
    (hdst : ∃ b, s.dists e.dest = some b) : BF.relaxEdge s e = .ok s := by
  obtain ⟨b, hb⟩ := hdst
  have hvc : vLt (vAdd .inf e.weight) b = false := by cases b <;> rfl
  unfold BF.relaxEdge
  rw [dget_of_some hsrc, dget_of_some hb]
  simp only [hvc, Bool.false_eq_true, if_false]

theorem relaxEdges_noop :
    ∀ (es : List BF.Edge) (s : BF.S),
      (∀ e ∈ es, s.dists e.source = some .inf ∧ ∃ b, s.dists e.dest = some b) →
      BF.relaxEdges es s = .ok s := by
  intro es
  induction es with
  | nil => intro s _; rfl
  | cons e es ih =>
    intro s hes
    have h1 := relaxEdge_noop (hes e (by simp)).1 (hes e (by simp)).2
    unfold BF.relaxEdges
    simp only [h1]
    exact ih s (fun e' he' => hes e' (by simp [he']))

theorem relaxPasses_noop :
    ∀ (n : Nat) (s : BF.S),
      (∀ e ∈ s.g.edges, s.dists e.source = some .inf ∧ ∃ b, s.dists e.dest = some b) →
      BF.relaxPasses n s = .ok s := by
  intro n
  induction n with
  | zero => intro s _; rfl
  | succ n ih =>
    intro s hes
    unfold BF.relaxPasses
    simp only [relaxEdges_noop s.g.edges s hes]
    exact ih s hes

theorem checkEdges_noop :
    ∀ (es : List BF.Edge) (d : Dict Val),
      (∀ e ∈ es, d e.source = some .inf ∧ ∃ b, d e.dest = some b) →
      BF.checkEdges es d = .ok () := by
  intro es
  induction es with
  | nil => intro d _; rfl
  | cons e es ih =>
    intro d hes
    obtain ⟨hsrc, b, hb⟩ := hes e (by simp)
    have hvc : vLt (vAdd .inf e.weight) b = false := by cases b <;> rfl
    simp only [BF.checkEdges, dget_of_some hsrc, dget_of_some hb, hvc,
      Bool.false_eq_true, if_false]
    exact ih d (fun e' he' => hes e' (by simp [he']))

/-! The two halves of the amended C6 statement for `dijkstra`. -/

theorem dijkstra_unknown_source_aux {g : DJ.Graph} {s0 t : ℤ} (h : s0 ∉ DJ.ids g) :
    DJ.dijkstra g s0 t = .error (.keyError s0) := by
  unfold DJ.dijkstra
  simp only [lookNode_not_mem h]

theorem dijkstra_unknown_target_aux {g : DJ.Graph} {s0 t : ℤ} (h : t ∉ DJ.ids g) :
    DJ.isKeyErr (DJ.dijkstra g s0 t) = true := by
  by_cases hs : s0 ∈ DJ.ids g
  · obtain ⟨start, hlook, hid⟩ := lookNode_mem hs
    unfold DJ.dijkstra
    simp only [hlook]
    rw [hid]
    have hI : djINV g t
        { g := g, endID := t, dists := DJ.initDists g s0,
          prevs := DJ.initPrevs g, pq := DJ.pqPush [] (0, s0) } :=
      loopStart_INV g s0 t
    have hphi : djPhi
        ({ g := g, endID := t, dists := DJ.initDists g s0,
           prevs := DJ.initPrevs g, pq := DJ.pqPush [] (0, s0) } : DJ.S) <
        DJ.dijkstraFuel g :=
      loopStart_phi g s0 t
    rcases dloop_cases h (DJ.dijkstraFuel g) _ hI hphi with ⟨k, hk⟩ | ⟨s', hok, hI'⟩
    · simp only [hk]
      rfl
    · simp only [hok]
      have hpt : s'.prevs t = none := by
        by_contra hcon
        exact h (hI'.2.2.2 t hcon)
      simp only [dget_of_none hpt]
      rfl
  · rw [dijkstra_unknown_source_aux hs]
    rfl

/-- C6 counterexample: `bellman_ford` called with an id outside the
declared vertex set does not fail with a lookup error — the statement
`dists[start_id] = 0` adds the unknown key to the dict — and the run
returns distance/predecessor maps: on the one-vertex edge-free graph with
unknown source 7 it returns maps where vertex 0 is at infinity with no
predecessor and the unknown id 7 has been recorded at distance 0. -/
theorem bellman_ford_unknown_source_returns_cex :
    Except.map (fun dp => (dp.1 0, dp.1 7, dp.2 0)) (BF.bellman_ford gOne 7) =
        .ok (some Val.inf, some (.fin 0), some none) := rfl

/-- C6 (amended): passing an unknown id as `source` to `dijkstra` fails
immediately with a `KeyError` for that id (at `g.nodes[startID]`); an
unknown `target` also makes `dijkstra` fail with a `KeyError` rather than
return a result (though only once the search needs the target: at the node
lookup of a popped undeclared id, or at `prevs[endID]` after the loop);
but `bellman_ford` with an unknown source does not fail: on any graph
whose edges stay within the declared vertex set it returns the
distance/predecessor maps unchanged except that the unknown source id has
been added at distance 0. -/
theorem unknown_vertex_error_amended :
    (∀ (g : DJ.Graph) (s0 t : ℤ), s0 ∉ DJ.ids g →
        DJ.dijkstra g s0 t = .error (.keyError s0))
    ∧ (∀ (g : DJ.Graph) (s0 t : ℤ), t ∉ DJ.ids g →
        DJ.isKeyErr (DJ.dijkstra g s0 t) = true)
    ∧ (∀ (g : BF.Graph) (s0 : ℤ),
        (∀ e ∈ g.edges, e.source ∈ g.vertices ∧ e.dest ∈ g.vertices) →
        s0 ∉ g.vertices →
        Except.map (fun dp => dp.1 s0) (BF.bellman_ford g s0) =
          .ok (some (.fin 0))) := by
  refine ⟨fun g s0 t h => dijkstra_unknown_source_aux h,
    fun g s0 t h => dijkstra_unknown_target_aux h, ?_⟩
  intro g s0 hwf hs0
  have hcond : ∀ e ∈ (BF.initState g s0).g.edges,
      (BF.initState g s0).dists e.source = some .inf ∧
        ∃ b, (BF.initState g s0).dists e.dest = some b := by
    intro e he
    have he' : e ∈ g.edges := he
    obtain ⟨h1, h2⟩ := hwf e he'
    constructor
    · rw [initState_dists_eq]
      have hne : ¬ e.source = s0 := by
        intro hc
        rw [hc] at h1
        exact hs0 h1
      rw [if_neg hne, if_pos h1]
    · exact initState_hasKeys g s0 e.dest h2
  have hpass := relaxPasses_noop (g.vertices.length - 1) (BF.initState g s0) hcond
  have hchk : BF.checkEdges (BF.initState g s0).g.edges (BF.initState g s0).dists =
      .ok () :=
    checkEdges_noop _ _ hcond
  unfold BF.bellman_ford
  simp only [hpass, hchk]
  simp only [Except.map]
  rw [initState_dists_eq, if_pos rfl]

/-- Witness for C6's amended statement: unknown source 5 and unknown
target 7 against the concrete scenario graph, and unknown source 9 against
the one-vertex `bellman_ford` graph. -/
theorem unknown_vertex_error_amended_witness :
    ((5 : ℤ) ∉ DJ.ids gDJ4 ∧ DJ.dijkstra gDJ4 5 0 = .error (.keyError 5))
    ∧ ((7 : ℤ) ∉ DJ.ids gDJ4 ∧ DJ.isKeyErr (DJ.dijkstra gDJ4 0 7) = true)
    ∧ ((∀ e ∈ gOne.edges, e.source ∈ gOne.vertices ∧ e.dest ∈ gOne.vertices)
        ∧ (9 : ℤ) ∉ gOne.vertices
        ∧ Except.map (fun dp => dp.1 9) (BF.bellman_ford gOne 9) =
            .ok (some (.fin 0))) :=
  ⟨⟨by decide, unknown_vertex_error_amended.1 gDJ4 5 0 (by decide)⟩,
    ⟨by decide, unknown_vertex_error_amended.2.1 gDJ4 0 7 (by decide)⟩,
    ⟨by decide, by decide,
      unknown_vertex_error_amended.2.2 gOne 9 (by decide) (by decide)⟩⟩
